import Mathlib

/-!
# Verification of `UpdatableRandomForestClassifier`

Shallow embedding of the ensemble logic of `updatable_random_forest.ipynb`.

The class `UpdatableRandomForestClassifier` keeps three pieces of state that
matter to the ensemble logic:

* `classes_`     : the sorted list of distinct class labels, fixed at the first
                   fit (sklearn sorts the unique labels of the first training
                   set in strictly increasing order);
* `estimators_`  : the list of member trees.  In sklearn, each tree of a
                   fitted forest is trained on the *encoded* labels
                   `0 .. len(classes_) - 1`, so a member's raw prediction for a
                   sample is an index into `classes_`, not the label itself;
* `vote_weights` : the parallel list of integer vote weights, one per member.

A member is modelled as a plain function from samples to its raw (encoded)
prediction; samples themselves are opaque.
-/

namespace URF

/-- Samples are opaque: only a member's prediction on them matters. -/
abbrev Sample := Nat

/-- A member tree, as the ensemble sees it: a deterministic map from a sample
to the tree's raw prediction (an encoded index into `classes_`). -/
abbrev Member := Sample → Nat

/-- The state of an `UpdatableRandomForestClassifier` after its first fit. -/
structure Ensemble where
  classes_ : List Nat
  estimators_ : List Member
  vote_weights : List Nat

/-- `__init__` followed by the first `fit`: `__init__` sets
`self.vote_weights = np.repeat(init_vote_weight, self.n_estimators)` and `fit`
trains exactly `n_estimators` member trees and derives `classes_` from the
training labels, so after the initial fit the state is `members` paired with
one copy of the initial weight per member. -/
def initEnsemble (classes : List Nat) (members : List Member) (w : Nat) : Ensemble :=
  { classes_ := classes
    estimators_ := members
    vote_weights := List.replicate members.length w }

/-- `fit_new_data`: trains a fresh batch of trees (here received already
trained, since training is an external collaborator) and appends them:
`self.estimators_ += new_trees.estimators_` and
`self.vote_weights = np.concatenate([self.vote_weights, np.repeat(vote_weight, k)])`.
The method performs no validation of the weight or the batch. -/
def fit_new_data (e : Ensemble) (new_members : List Member) (vote_weight : Nat) : Ensemble :=
  { e with
    estimators_ := e.estimators_ ++ new_members
    vote_weights := e.vote_weights ++ List.replicate new_members.length vote_weight }

/-- Maximum of a list of naturals (`0` for the empty list). -/
def listMax (l : List Nat) : Nat := l.foldr Nat.max 0

/-- The highest multiplicity attained by any value of `b`. -/
def maxVoteCount (b : List Nat) : Nat := listMax (b.map fun v => b.count v)

/-- `scipy.stats.mode` along a column: the most frequent value, and when
several values are tied for the highest count, the smallest of them (scipy
scans the sorted unique values and replaces the current best only on a
strictly greater count).  On an empty column scipy returns `0`. -/
def modeVal (b : List Nat) : Nat :=
  ((List.range (listMax b + 1)).find? fun v => b.count v == maxVoteCount b).getD 0

/-- The rows contributed to the weighted vote matrix on behalf of one sample:
`np.repeat(all_preds, self.vote_weights, axis=0)` repeats member `i`'s
prediction row `vote_weights[i]` times, so in any fixed column (sample) member
`i` contributes `vote_weights[i]` copies of its raw prediction. -/
def ballotChunks (e : Ensemble) (x : Sample) : List (List Nat) :=
  List.zipWith (fun t w => List.replicate w (t x)) e.estimators_ e.vote_weights

/-- The full weighted ballot of raw (encoded) predictions for one sample: the
column of the repeated prediction matrix that belongs to that sample. -/
def sampleBallot (e : Ensemble) (x : Sample) : List Nat :=
  (ballotChunks e x).flatten

/-- Decoding a raw prediction to an actual class label, as
`self.classes_.take(modes, axis=0)` does for an in-range index.  Out of range
the code raises; callers guard the index separately. -/
def decodeLabel (e : Ensemble) (r : Nat) : Nat := e.classes_.getD r 0

/-- The weighted ballot of one sample seen at the label level: each raw vote
decoded through `classes_`. -/
def decodedBallot (e : Ensemble) (x : Sample) : List Nat :=
  (sampleBallot e x).map (decodeLabel e)

/-- The per-sample weighted ballot in decoded form, chunked by member. -/
def decodedChunks (e : Ensemble) (x : Sample) : List (List Nat) :=
  List.zipWith (fun t w => List.replicate w (decodeLabel e (t x))) e.estimators_ e.vote_weights

/-- `predict_votes`: `check_array` rejects an empty query set
(`ensure_min_samples=1`), `np.repeat` raises when `vote_weights` does not
match the number of prediction rows, `scipy.stats.mode` takes the per-sample
mode of the weighted ballot, and `classes_.take` decodes the mode, raising on
an out-of-range index.  Failure of any step is `none`. -/
def predict_votes (e : Ensemble) (X : List Sample) : Option (List Nat) :=
  if X.isEmpty then none
  else if e.estimators_.length = e.vote_weights.length then
    X.mapM fun x =>
      if h : modeVal (sampleBallot e x) < e.classes_.length then
        some (e.classes_.get ⟨modeVal (sampleBallot e x), h⟩)
      else none
  else none

/-- Numpy elementwise equality of two one-dimensional arrays: equal lengths
compare pointwise; a length-one operand broadcasts against the other; any
other shape mismatch is an error (the comparison, or the subsequent
`sum(False)`, raises). -/
def eqBroadcast (a b : List Nat) : Option (List Bool) :=
  if a.length = b.length then some (List.zipWith (fun u v => u == v) a b)
  else if b.length = 1 then some (a.map fun u => u == b.headI)
  else if a.length = 1 then some (b.map fun v => a.headI == v)
  else none

/-- `sum` over a boolean mask: the number of `True` entries. -/
def countTrue (l : List Bool) : Nat := l.count true

/-- `score_votes`: the body is `sum(rf.predict_votes(X) == y) / len(y)` — note
that it consults the *global* `rf`, not the receiver `self`, which is bound
but never read.  Division is Python 3 true division, modelled exactly over the
rationals; `len(y) == 0` would divide by zero. -/
def score_votes (rf : Ensemble) (self : Ensemble) (X : List Sample) (y : List Nat) : Option Rat :=
  match predict_votes rf X with
  | none => none
  | some preds =>
    match eqBroadcast preds y with
    | none => none
    | some eqs =>
      if y.length = 0 then none
      else some ((countTrue eqs : Rat) / (y.length : Rat))

/-- The structural pairing of the two parallel sequences. -/
def lengthInvariant (e : Ensemble) : Prop :=
  e.estimators_.length = e.vote_weights.length

/-- What sklearn guarantees about a fitted forest, plus the spec's validity
conditions on an initialized ensemble: members and weights are paired,
`classes_` is the strictly increasing list of distinct labels of the first
fit, every member tree predicts an encoded index inside that class domain,
every vote weight is at least `1`, and at least one member exists. -/
def WellFormed (e : Ensemble) : Prop :=
  e.estimators_.length = e.vote_weights.length ∧
  e.classes_.Sorted (· < ·) ∧
  (∀ t ∈ e.estimators_, ∀ x : Sample, t x < e.classes_.length) ∧
  (∀ w ∈ e.vote_weights, 1 ≤ w) ∧
  e.estimators_ ≠ []

/-- A member that predicts the same raw value for every sample. -/
def constM (c : Nat) : Member := fun _ => c

/-- The ensemble of the spec's Scenario C: five weight-1 members whose raw
predictions for every sample are `0,0,0,1,1`, extended by an appended batch of
five weight-2 members all predicting `1`, over the class domain `[0, 1]`. -/
def scenC : Ensemble :=
  fit_new_data
    (initEnsemble [0, 1] [constM 0, constM 0, constM 0, constM 1, constM 1] 1)
    [constM 1, constM 1, constM 1, constM 1, constM 1] 2

/-- A two-member ensemble whose two labels are perfectly tied on every
sample. -/
def tieEns : Ensemble :=
  initEnsemble [0, 1] [constM 0, constM 1] 1

/-- A one-member ensemble predicting label `0` for every sample. -/
def zeroEns : Ensemble :=
  initEnsemble [0, 1] [constM 0] 1

/-! ## Lemmas on `listMax`, `maxVoteCount` and `modeVal` -/

theorem mem_le_listMax {l : List Nat} {x : Nat} (hx : x ∈ l) : x ≤ listMax l := by
  induction l with
  | nil => cases hx
  | cons a t ih =>
    rcases List.mem_cons.mp hx with rfl | hx
    · exact Nat.le_max_left _ _
    · exact Nat.le_trans (ih hx) (Nat.le_max_right _ _)

theorem listMax_mem_or_zero (l : List Nat) : listMax l ∈ l ∨ listMax l = 0 := by
  induction l with
  | nil => exact Or.inr rfl
  | cons a t ih =>
    have hfold : listMax (a :: t) = Nat.max a (listMax t) := rfl
    have hm : Nat.max a (listMax t) = a ∨ Nat.max a (listMax t) = listMax t := by
      rcases Nat.le_total (listMax t) a with hle | hle
      · exact Or.inl (Nat.max_eq_left hle)
      · exact Or.inr (Nat.max_eq_right hle)
    rcases hm with hm | hm
    · exact Or.inl (by rw [hfold, hm]; exact List.mem_cons_self a t)
    · rcases ih with h | h
      · exact Or.inl (by rw [hfold, hm]; exact List.mem_cons_of_mem a h)
      · exact Or.inr (by rw [hfold, hm, h])

theorem count_le_maxVoteCount (b : List Nat) (v : Nat) : b.count v ≤ maxVoteCount b := by
  by_cases hv : v ∈ b
  · exact mem_le_listMax (List.mem_map_of_mem (fun u => b.count u) hv)
  · rw [List.count_eq_zero.mpr hv]
    exact Nat.zero_le _

theorem one_le_maxVoteCount {b : List Nat} (hb : b ≠ []) : 1 ≤ maxVoteCount b := by
  match b, hb with
  | a :: t, _ =>
    have h1 : 1 ≤ (a :: t).count a := by
      rw [List.count_cons_self]
      omega
    exact Nat.le_trans h1 (count_le_maxVoteCount (a :: t) a)

theorem maxVoteCount_attained {b : List Nat} (hb : b ≠ []) :
    ∃ v ∈ b, b.count v = maxVoteCount b := by
  rcases listMax_mem_or_zero (b.map fun u => b.count u) with h | h
  · obtain ⟨v, hv, hc⟩ := List.mem_map.mp h
    exact ⟨v, hv, hc⟩
  · have h0 : maxVoteCount b = 0 := h
    have h1 := one_le_maxVoteCount hb
    omega

theorem range_find?_min {n v : Nat} {p : Nat → Bool}
    (h : (List.range n).find? p = some v) {w : Nat} (hw : p w) : v ≤ w := by
  induction n with
  | zero => simp [List.range_zero] at h
  | succ n ih =>
    rw [List.range_succ, List.find?_append] at h
    cases hfind : (List.range n).find? p with
    | some v' =>
      rw [hfind] at h
      simp only [Option.or_some] at h
      have hv : v' = v := Option.some.inj h
      subst hv
      exact ih hfind
    | none =>
      rw [hfind, Option.none_or] at h
      have hall := List.find?_eq_none.mp hfind
      have hvn : v = n := by
        cases hpn : p n with
        | true => simpa [List.find?, hpn] using h.symm
        | false => simp [List.find?, hpn] at h
      subst hvn
      by_contra hlt
      exact hall w (List.mem_range.mpr (by omega)) hw

theorem modeVal_find {b : List Nat} (hb : b ≠ []) :
    ((List.range (listMax b + 1)).find? fun v => b.count v == maxVoteCount b)
      = some (modeVal b) := by
  obtain ⟨v0, hv0m, hv0c⟩ := maxVoteCount_attained hb
  have hrange : v0 ∈ List.range (listMax b + 1) :=
    List.mem_range.mpr (Nat.lt_succ_of_le (mem_le_listMax hv0m))
  have hsome : ((List.range (listMax b + 1)).find? fun v => b.count v == maxVoteCount b).isSome :=
    List.find?_isSome.mpr ⟨v0, hrange, by simp [hv0c]⟩
  obtain ⟨m, hm⟩ := Option.isSome_iff_exists.mp hsome
  rw [hm]
  unfold modeVal
  rw [hm]
  rfl

theorem modeVal_count {b : List Nat} (hb : b ≠ []) : b.count (modeVal b) = maxVoteCount b := by
  have := List.find?_some (modeVal_find hb)
  simpa using this

theorem modeVal_min {b : List Nat} (hb : b ≠ []) {v : Nat}
    (hv : b.count v = maxVoteCount b) : modeVal b ≤ v :=
  range_find?_min (modeVal_find hb) (by simp [hv])

theorem modeVal_mem {b : List Nat} (hb : b ≠ []) : modeVal b ∈ b := by
  have h1 := modeVal_count hb
  have h2 := one_le_maxVoteCount hb
  exact List.count_pos_iff.mp (by omega)

theorem modeVal_unique {b : List Nat} (hb : b ≠ []) {m : Nat}
    (hc : b.count m = maxVoteCount b)
    (hmin : ∀ v, b.count v = maxVoteCount b → m ≤ v) : modeVal b = m :=
  Nat.le_antisymm (modeVal_min hb hc) (hmin (modeVal b) (modeVal_count hb))

/-! ## The mode commutes with a strictly increasing relabelling -/

theorem count_map_inj {f : Nat → Nat} {k : Nat}
    (hinj : ∀ i j, i < k → j < k → f i = f j → i = j) :
    ∀ {b : List Nat}, (∀ v ∈ b, v < k) → ∀ {v : Nat}, v < k →
      (b.map f).count (f v) = b.count v := by
  intro b
  induction b with
  | nil => intro _ v _; rfl
  | cons a t ih =>
    intro hb v hv
    have ha : a < k := hb a (List.mem_cons_self a t)
    have ht : ∀ u ∈ t, u < k := fun u hu => hb u (List.mem_cons_of_mem a hu)
    rw [List.map_cons, List.count_cons, List.count_cons, ih ht hv]
    by_cases hav : a = v
    · subst hav
      simp
    · have hfav : f a ≠ f v := fun hf => hav (hinj a v ha hv hf)
      simp [hav, hfav]

theorem maxVoteCount_map {f : Nat → Nat} {k : Nat}
    (hinj : ∀ i j, i < k → j < k → f i = f j → i = j)
    {b : List Nat} (hb : ∀ v ∈ b, v < k) (hne : b ≠ []) :
    maxVoteCount (b.map f) = maxVoteCount b := by
  have hmapne : b.map f ≠ [] := by
    intro h
    exact hne (List.map_eq_nil_iff.mp h)
  apply Nat.le_antisymm
  · obtain ⟨u', hu'm, hu'c⟩ := maxVoteCount_attained hmapne
    obtain ⟨u, hu, rfl⟩ := List.mem_map.mp hu'm
    rw [← hu'c, count_map_inj hinj hb (hb u hu)]
    exact count_le_maxVoteCount b u
  · obtain ⟨v0, hv0m, hv0c⟩ := maxVoteCount_attained hne
    rw [← hv0c, ← count_map_inj hinj hb (hb v0 hv0m)]
    exact count_le_maxVoteCount (b.map f) (f v0)

theorem modeVal_map {f : Nat → Nat} {k : Nat}
    (hmono : ∀ i j, i < j → j < k → f i < f j)
    {b : List Nat} (hb : ∀ v ∈ b, v < k) (hne : b ≠ []) :
    modeVal (b.map f) = f (modeVal b) := by
  have hinj : ∀ i j, i < k → j < k → f i = f j → i = j := by
    intro i j hi hj hij
    rcases Nat.lt_trichotomy i j with h | h | h
    · exact absurd hij (Nat.ne_of_lt (hmono i j h hj))
    · exact h
    · exact absurd hij.symm (Nat.ne_of_lt (hmono j i h hi))
  have hmapne : b.map f ≠ [] := by
    intro h
    exact hne (List.map_eq_nil_iff.mp h)
  have hM : modeVal b ∈ b := modeVal_mem hne
  have hMk : modeVal b < k := hb _ hM
  have hmax : maxVoteCount (b.map f) = maxVoteCount b := maxVoteCount_map hinj hb hne
  apply modeVal_unique hmapne
  · rw [count_map_inj hinj hb hMk, modeVal_count hne, hmax]
  · intro w hw
    have hw1 : 1 ≤ (b.map f).count w := by
      have := one_le_maxVoteCount hmapne
      omega
    have hwm : w ∈ b.map f := List.count_pos_iff.mp (by omega)
    obtain ⟨u, hu, rfl⟩ := List.mem_map.mp hwm
    have huc : b.count u = maxVoteCount b := by
      rw [← count_map_inj hinj hb (hb u hu), hw, hmax]
    have hle : modeVal b ≤ u := modeVal_min hne huc
    rcases Nat.eq_or_lt_of_le hle with h | h
    · rw [h]
    · exact Nat.le_of_lt (hmono _ _ h (hb u hu))

/-! ## Structure of the weighted ballot -/

theorem mem_zipWith {α β γ : Type} {f : α → β → γ} :
    ∀ {l1 : List α} {l2 : List β} {c : γ}, c ∈ List.zipWith f l1 l2 →
      ∃ a ∈ l1, ∃ b ∈ l2, c = f a b := by
  intro l1
  induction l1 with
  | nil => intro l2 c h; simp at h
  | cons a t ih =>
    intro l2 c h
    cases l2 with
    | nil => simp at h
    | cons b t2 =>
      rw [List.zipWith_cons_cons] at h
      rcases List.mem_cons.mp h with h | h
      · exact ⟨a, List.mem_cons_self a t, b, List.mem_cons_self b t2, h⟩
      · obtain ⟨a', ha, b', hb, rfl⟩ := ih h
        exact ⟨a', List.mem_cons_of_mem a ha, b', List.mem_cons_of_mem b hb, rfl⟩

theorem flatten_replicate_length (x : Sample) :
    ∀ (ts : List Member) (ws : List Nat), ts.length = ws.length →
      ((List.zipWith (fun t w => List.replicate w (t x)) ts ws).flatten).length = ws.sum := by
  intro ts
  induction ts with
  | nil =>
    intro ws h
    cases ws with
    | nil => rfl
    | cons w ws' => simp at h
  | cons t ts' ih =>
    intro ws h
    cases ws with
    | nil => simp at h
    | cons w ws' =>
      rw [List.zipWith_cons_cons, List.flatten_cons, List.length_append,
        List.length_replicate, ih ws' (by simpa using h), List.sum_cons]

theorem sampleBallot_length {e : Ensemble} (h : lengthInvariant e) (x : Sample) :
    (sampleBallot e x).length = e.vote_weights.sum :=
  flatten_replicate_length x e.estimators_ e.vote_weights h

theorem sampleBallot_ne_nil {e : Ensemble} (hwf : WellFormed e) (x : Sample) :
    sampleBallot e x ≠ [] := by
  obtain ⟨hlen, _, _, hwts, hne⟩ := hwf
  rw [← List.length_pos, sampleBallot_length hlen x]
  cases hv : e.vote_weights with
  | nil =>
    exfalso
    apply hne
    have : e.estimators_.length = 0 := by rw [hlen, hv]; rfl
    exact List.length_eq_zero.mp this
  | cons w ws =>
    have h1 : 1 ≤ w := hwts w (by rw [hv]; exact List.mem_cons_self w ws)
    rw [List.sum_cons]
    omega

theorem sampleBallot_mem_lt {e : Ensemble}
    (hpred : ∀ t ∈ e.estimators_, ∀ x : Sample, t x < e.classes_.length)
    (x : Sample) : ∀ v ∈ sampleBallot e x, v < e.classes_.length := by
  intro v hv
  rw [sampleBallot, List.mem_flatten] at hv
  obtain ⟨c, hc, hvc⟩ := hv
  obtain ⟨t, ht, w, _, rfl⟩ := mem_zipWith hc
  rw [List.eq_of_mem_replicate hvc]
  exact hpred t ht x

theorem map_flatten_replicate (g : Nat → Nat) (x : Sample) :
    ∀ (ts : List Member) (ws : List Nat),
      ((List.zipWith (fun t w => List.replicate w (t x)) ts ws).flatten).map g
        = (List.zipWith (fun t w => List.replicate w (g (t x))) ts ws).flatten := by
  intro ts
  induction ts with
  | nil => intro ws; cases ws <;> rfl
  | cons t ts' ih =>
    intro ws
    cases ws with
    | nil => rfl
    | cons w ws' =>
      rw [List.zipWith_cons_cons, List.zipWith_cons_cons, List.flatten_cons, List.flatten_cons,
        List.map_append, List.map_replicate, ih ws']

theorem decodedBallot_eq_chunks (e : Ensemble) (x : Sample) :
    decodedBallot e x = (decodedChunks e x).flatten :=
  map_flatten_replicate (decodeLabel e) x e.estimators_ e.vote_weights

theorem decodedBallot_length {e : Ensemble} (h : lengthInvariant e) (x : Sample) :
    (decodedBallot e x).length = e.vote_weights.sum := by
  rw [decodedBallot, List.length_map]
  exact sampleBallot_length h x

theorem decodedBallot_ne_nil {e : Ensemble} (hwf : WellFormed e) (x : Sample) :
    decodedBallot e x ≠ [] := by
  rw [decodedBallot]
  intro h
  exact sampleBallot_ne_nil hwf x (List.map_eq_nil_iff.mp h)

/-! ## `mapM` over `Option` -/

theorem mapM_option_eq_map {α β : Type} (f : α → Option β) (g : α → β) :
    ∀ (X : List α), (∀ x ∈ X, f x = some (g x)) → X.mapM f = some (X.map g) := by
  intro X
  induction X with
  | nil => intro _; rfl
  | cons a t ih =>
    intro h
    rw [List.mapM_cons, h a (List.mem_cons_self a t),
      ih fun x hx => h x (List.mem_cons_of_mem a hx)]
    rfl

theorem mapM_option_mem {α β : Type} (f : α → Option β) :
    ∀ (X : List α) (L : List β), X.mapM f = some L → ∀ l ∈ L, ∃ x ∈ X, f x = some l := by
  intro X
  induction X with
  | nil =>
    intro L h l hl
    rw [List.mapM_nil] at h
    have : L = [] := (Option.some.inj h).symm
    subst this
    cases hl
  | cons a t ih =>
    intro L h l hl
    rw [List.mapM_cons] at h
    cases hfa : f a with
    | none => rw [hfa] at h; simp at h
    | some b =>
      rw [hfa] at h
      cases hft : t.mapM f with
      | none => rw [hft] at h; simp at h
      | some bs =>
        rw [hft] at h
        have hL : b :: bs = L := by simpa using h
        subst hL
        rcases List.mem_cons.mp hl with rfl | hl
        · exact ⟨a, List.mem_cons_self a t, hfa⟩
        · obtain ⟨x, hx, hfx⟩ := ih bs hft l hl
          exact ⟨x, List.mem_cons_of_mem a hx, hfx⟩

theorem mapM_option_length {α β : Type} (f : α → Option β) :
    ∀ (X : List α) (L : List β), X.mapM f = some L → L.length = X.length := by
  intro X
  induction X with
  | nil =>
    intro L h
    rw [List.mapM_nil] at h
    have : L = [] := (Option.some.inj h).symm
    subst this
    rfl
  | cons a t ih =>
    intro L h
    rw [List.mapM_cons] at h
    cases hfa : f a with
    | none => rw [hfa] at h; simp at h
    | some b =>
      rw [hfa] at h
      cases hft : t.mapM f with
      | none => rw [hft] at h; simp at h
      | some bs =>
        rw [hft] at h
        have hL : b :: bs = L := by simpa using h
        subst hL
        rw [List.length_cons, List.length_cons, ih bs hft]

/-! ## Characterizing `predict_votes` -/

/-- The decoding map is strictly increasing on in-range indices, because
sklearn fixes `classes_` as the sorted distinct labels of the first fit. -/
theorem decodeLabel_strictMono {e : Ensemble} (hsort : e.classes_.Sorted (· < ·)) :
    ∀ i j, i < j → j < e.classes_.length → decodeLabel e i < decodeLabel e j := by
  intro i j hij hj
  have hi : i < e.classes_.length := Nat.lt_trans hij hj
  rw [decodeLabel, decodeLabel, List.getD_eq_getElem _ _ hi, List.getD_eq_getElem _ _ hj]
  simpa using hsort.get_strictMono (show (⟨i, hi⟩ : Fin e.classes_.length) < ⟨j, hj⟩ from hij)

/-- On a well-formed ensemble and a non-empty query batch, `predict_votes`
succeeds and returns, for each sample in order, the weighted mode of that
sample's label-level ballot (the lowest label among those tied for the
highest weighted count). -/
theorem predict_votes_eq {e : Ensemble} (hwf : WellFormed e) {X : List Sample} (hX : X ≠ []) :
    predict_votes e X = some (X.map fun x => modeVal (decodedBallot e x)) := by
  obtain ⟨hlen, hsort, hpred, hwts, hne⟩ := hwf
  rw [predict_votes, if_neg (by simpa [List.isEmpty_iff] using hX), if_pos hlen]
  apply mapM_option_eq_map
  intro x _
  have hbne : sampleBallot e x ≠ [] := sampleBallot_ne_nil ⟨hlen, hsort, hpred, hwts, hne⟩ x
  have hblt : ∀ v ∈ sampleBallot e x, v < e.classes_.length := sampleBallot_mem_lt hpred x
  have hm : modeVal (sampleBallot e x) < e.classes_.length := hblt _ (modeVal_mem hbne)
  rw [dif_pos hm]
  congr 1
  rw [decodedBallot, modeVal_map (decodeLabel_strictMono hsort) hblt hbne,
    decodeLabel, List.getD_eq_getElem _ _ hm, List.get_eq_getElem]

theorem predict_votes_length {e : Ensemble} {X : List Sample} {L : List Nat}
    (h : predict_votes e X = some L) : L.length = X.length := by
  rw [predict_votes] at h
  by_cases h1 : X.isEmpty
  · rw [if_pos h1] at h
    cases h
  · rw [if_neg h1] at h
    by_cases h2 : e.estimators_.length = e.vote_weights.length
    · rw [if_pos h2] at h
      exact mapM_option_length _ X L h
    · rw [if_neg h2] at h
      cases h

/-! ## Counting matches for `score_votes` -/

theorem countTrue_zipWith_self (y : List Nat) :
    countTrue (List.zipWith (fun u v => u == v) y y) = y.length := by
  induction y with
  | nil => rfl
  | cons a t ih =>
    rw [List.zipWith_cons_cons]
    simp only [countTrue] at ih ⊢
    simp [List.count_cons, ih]

theorem countTrue_zipWith_zero :
    ∀ (P y : List Nat),
      (∀ (i : Nat) (h1 : i < P.length) (h2 : i < y.length), P[i] ≠ y[i]) →
      countTrue (List.zipWith (fun u v => u == v) P y) = 0 := by
  intro P
  induction P with
  | nil => intro y _; rfl
  | cons a t ih =>
    intro y h
    cases y with
    | nil => rfl
    | cons b u =>
      rw [List.zipWith_cons_cons]
      have hab : a ≠ b := h 0 (by simp) (by simp)
      have ht : ∀ (i : Nat) (h1 : i < t.length) (h2 : i < u.length), t[i] ≠ u[i] := by
        intro i h1 h2
        have := h (i + 1) (by simpa using Nat.succ_lt_succ h1) (by simpa using Nat.succ_lt_succ h2)
        simpa using this
      simp only [countTrue] at ih ⊢
      simp [List.count_cons, hab, ih u ht]

/-! ## Well-formedness of the concrete ensembles -/

theorem scenC_wellFormed : WellFormed scenC := by
  refine ⟨rfl, by decide, ?_, by decide, ?_⟩
  · intro t ht x
    have hts : scenC.estimators_ = [constM 0, constM 0, constM 0, constM 1, constM 1,
        constM 1, constM 1, constM 1, constM 1, constM 1] := rfl
    rw [hts] at ht
    simp only [List.mem_cons, List.not_mem_nil, or_false] at ht
    rcases ht with rfl | rfl | rfl | rfl | rfl | rfl | rfl | rfl | rfl | rfl <;>
      (simp only [constM]; decide)
  · intro h
    have h0 : scenC.estimators_.length = 0 := by rw [h]; rfl
    have h10 : (10 : Nat) = 0 := h0
    omega

theorem tieEns_wellFormed : WellFormed tieEns := by
  refine ⟨rfl, by decide, ?_, by decide, ?_⟩
  · intro t ht x
    have hts : tieEns.estimators_ = [constM 0, constM 1] := rfl
    rw [hts] at ht
    simp only [List.mem_cons, List.not_mem_nil, or_false] at ht
    rcases ht with rfl | rfl <;> (simp only [constM]; decide)
  · intro h
    have h0 : tieEns.estimators_.length = 0 := by rw [h]; rfl
    have h2 : (2 : Nat) = 0 := h0
    omega

/-! ## The claims -/

/-- C1: on every well-formed ensemble and non-empty query batch,
`predict_votes` returns one label per sample in input order, and each sample's
label is the weighted mode of that sample's ballot of member labels, in which
member `i`'s predicted label occurs `vote_weights[i]` times. -/
theorem C1_predict_is_weighted_mode {e : Ensemble} (hwf : WellFormed e)
    {X : List Sample} (hX : X ≠ []) :
    predict_votes e X = some (X.map fun x => modeVal (decodedBallot e x)) :=
  predict_votes_eq hwf hX

/-- C1 witness, Scenario C: five weight-1 members voting `0,0,0,1,1` plus five
appended weight-2 members voting `1` give the weighted ballot `{0: 3, 1: 12}`,
and the predicted label is `1`. -/
theorem C1_predict_is_weighted_mode_witness :
    WellFormed scenC ∧ ([0] : List Sample) ≠ [] ∧
    predict_votes scenC [0] = some (([0] : List Sample).map fun x => modeVal (decodedBallot scenC x)) ∧
    predict_votes scenC [0] = some [1] :=
  ⟨scenC_wellFormed, by decide,
    C1_predict_is_weighted_mode scenC_wellFormed (by decide), by decide⟩

/-- C2 counterexample: `fit_new_data` with weight `0` does not fail — it
appends the batch, extending `vote_weights` with a `0` entry, so the state is
not left unchanged and no `InvalidConfiguration` error exists. -/
theorem C2_counterexample :
    (fit_new_data scenC [constM 0] 0).vote_weights.length ≠ scenC.vote_weights.length ∧
    (fit_new_data scenC [constM 0] 0).vote_weights = scenC.vote_weights ++ [0] := by
  constructor
  · decide
  · rfl

/-- C2 amended: `fit_new_data` performs no validation at all: for every
weight, including `0`, and every batch, including the empty one, the call
succeeds and appends the batch members together with one copy of the weight
per new member, leaving `classes_` unchanged. -/
theorem C2_amended_no_validation (e : Ensemble) (ms : List Member) (w : Nat) :
    (fit_new_data e ms w).estimators_ = e.estimators_ ++ ms ∧
    (fit_new_data e ms w).vote_weights = e.vote_weights ++ List.replicate ms.length w ∧
    (fit_new_data e ms w).classes_ = e.classes_ :=
  ⟨rfl, rfl, rfl⟩

/-- C3: `len(members) == len(weights)` holds after the initial fit and after
every sequence of `fit_new_data` calls, and each call grows both parallel
sequences by exactly the size of the new batch. -/
theorem C3_length_invariant_lifetime :
    (∀ (cs : List Nat) (ms : List Member) (w : Nat) (batches : List (List Member × Nat)),
      lengthInvariant (batches.foldl (fun e p => fit_new_data e p.1 p.2) (initEnsemble cs ms w))) ∧
    (∀ (e : Ensemble) (nb : List Member) (nw : Nat),
      (fit_new_data e nb nw).estimators_.length = e.estimators_.length + nb.length ∧
      (fit_new_data e nb nw).vote_weights.length = e.vote_weights.length + nb.length) := by
  constructor
  · intro cs ms w batches
    have hpres : ∀ (l : List (List Member × Nat)) (e : Ensemble), lengthInvariant e →
        lengthInvariant (l.foldl (fun e p => fit_new_data e p.1 p.2) e) := by
      intro l
      induction l with
      | nil => intro e he; exact he
      | cons p t ih =>
        intro e he
        apply ih
        rw [lengthInvariant] at he ⊢
        have h1 : (fit_new_data e p.1 p.2).estimators_ = e.estimators_ ++ p.1 := rfl
        have h2 : (fit_new_data e p.1 p.2).vote_weights
            = e.vote_weights ++ List.replicate p.1.length p.2 := rfl
        rw [h1, h2]
        simp only [List.length_append, List.length_replicate]
        omega
    apply hpres
    rw [lengthInvariant, initEnsemble]
    simp
  · intro e nb nw
    have h1 : (fit_new_data e nb nw).estimators_ = e.estimators_ ++ nb := rfl
    have h2 : (fit_new_data e nb nw).vote_weights
        = e.vote_weights ++ List.replicate nb.length nw := rfl
    rw [h1, h2]
    simp [List.length_append, List.length_replicate]

/-- C4: for every ensemble whose parallel sequences are paired, and for every
sample, the weighted ballot tallied for that sample has size exactly
`sum(vote_weights)`, both at the raw and at the label level; the label-level
ballot is the concatenation of per-member chunks, and member `i`'s chunk is
exactly `vote_weights[i]` copies of member `i`'s predicted label. -/
theorem C4_ballot_size (e : Ensemble) (x : Sample) (h : lengthInvariant e) :
    (sampleBallot e x).length = e.vote_weights.sum ∧
    (decodedBallot e x).length = e.vote_weights.sum ∧
    decodedBallot e x = (decodedChunks e x).flatten ∧
    ∀ (i : Nat) (hi : i < e.estimators_.length) (hw : i < e.vote_weights.length)
      (hc : i < (decodedChunks e x).length),
      (decodedChunks e x)[i]
        = List.replicate e.vote_weights[i] (decodeLabel e (e.estimators_[i] x)) := by
  refine ⟨sampleBallot_length h x, decodedBallot_length h x, decodedBallot_eq_chunks e x, ?_⟩
  intro i hi hw hc
  exact List.getElem_zipWith

/-- C4 witness: on the Scenario C ensemble, the ballot for a sample has
exactly `sum(weights) = 15` entries. -/
theorem C4_ballot_size_witness :
    lengthInvariant scenC ∧ (sampleBallot scenC 0).length = scenC.vote_weights.sum :=
  ⟨rfl, (C4_ballot_size scenC 0 rfl).1⟩

/-- C5: whenever two or more labels are tied for the maximum weighted vote
count on a sample, the label `predict_votes` returns for that sample is
itself among the tied candidates and is the lowest-valued of all of them. -/
theorem C5_tie_break_lowest {e : Ensemble} (hwf : WellFormed e)
    {X : List Sample} {L : List Nat} (hp : predict_votes e X = some L)
    {j : Nat} (hjX : j < X.length) (hjL : j < L.length)
    {a b : Nat} (hab : a ≠ b)
    (ha : (decodedBallot e X[j]).count a = maxVoteCount (decodedBallot e X[j]))
    (hb : (decodedBallot e X[j]).count b = maxVoteCount (decodedBallot e X[j])) :
    (decodedBallot e X[j]).count L[j] = maxVoteCount (decodedBallot e X[j]) ∧
    L[j] ≤ a ∧ L[j] ≤ b ∧
    (∀ v, (decodedBallot e X[j]).count v = maxVoteCount (decodedBallot e X[j]) → L[j] ≤ v) := by
  have hX : X ≠ [] := by
    intro hnil
    subst hnil
    cases hjX
  have heq := predict_votes_eq hwf hX
  rw [heq] at hp
  have hL : L = X.map fun x => modeVal (decodedBallot e x) := (Option.some.inj hp).symm
  subst hL
  have hLj : (X.map fun x => modeVal (decodedBallot e x))[j] = modeVal (decodedBallot e X[j]) :=
    List.getElem_map _
  rw [hLj]
  have hbne : decodedBallot e X[j] ≠ [] := decodedBallot_ne_nil hwf _
  exact ⟨modeVal_count hbne, modeVal_min hbne ha, modeVal_min hbne hb,
    fun v hv => modeVal_min hbne hv⟩

/-- C5 witness: a two-member ensemble with labels `0` and `1` perfectly tied
returns the lower label `0`. -/
theorem C5_tie_break_lowest_witness :
    (decodedBallot tieEns (([0] : List Sample)[0])).count (([0] : List Nat)[0])
      = maxVoteCount (decodedBallot tieEns (([0] : List Sample)[0])) ∧
    ([0] : List Nat)[0] ≤ 1 ∧ ([0] : List Nat)[0] ≤ 0 := by
  have h := C5_tie_break_lowest tieEns_wellFormed
    (show predict_votes tieEns [0] = some [0] by decide)
    (show (0 : Nat) < 1 by decide) (show (0 : Nat) < 1 by decide)
    (show (1 : Nat) ≠ 0 by decide) (by decide) (by decide)
  exact ⟨h.1, h.2.1, h.2.2.1⟩

/-- C6: on a non-empty query batch and an equally long truth vector,
`score_votes` returns exactly the number of positional matches between the
predictions and the truth divided by the number of samples, a rational in
`[0, 1]`; it is exactly `1` when every prediction matches and exactly `0`
when none does. -/
theorem C6_score_accuracy (rfG self : Ensemble) (X : List Sample) (y : List Nat) (P : List Nat)
    (hx : X ≠ []) (hlen : X.length = y.length) (hp : predict_votes rfG X = some P) :
    score_votes rfG self X y
        = some ((countTrue (List.zipWith (fun u v => u == v) P y) : Rat) / (y.length : Rat)) ∧
    (0 : Rat) ≤ (countTrue (List.zipWith (fun u v => u == v) P y) : Rat) / (y.length : Rat) ∧
    (countTrue (List.zipWith (fun u v => u == v) P y) : Rat) / (y.length : Rat) ≤ 1 ∧
    (P = y → score_votes rfG self X y = some 1) ∧
    ((∀ (i : Nat) (h1 : i < P.length) (h2 : i < y.length), P[i] ≠ y[i]) →
      score_votes rfG self X y = some 0) := by
  have hPlen : P.length = y.length := (predict_votes_length hp).trans hlen
  have hbc : eqBroadcast P y = some (List.zipWith (fun u v => u == v) P y) := by
    rw [eqBroadcast, if_pos hPlen]
  have hy0 : y.length ≠ 0 := by
    have h1 : 0 < X.length := List.length_pos.mpr hx
    omega
  have hscore : score_votes rfG self X y
      = some ((countTrue (List.zipWith (fun u v => u == v) P y) : Rat) / (y.length : Rat)) := by
    simp only [score_votes, hp, hbc]
    rw [if_neg hy0]
  have hclen : countTrue (List.zipWith (fun u v => u == v) P y) ≤ y.length := by
    have h1 : countTrue (List.zipWith (fun u v => u == v) P y)
        ≤ (List.zipWith (fun u v => u == v) P y).length := List.count_le_length _ _
    have h2 : (List.zipWith (fun u v => u == v) P y).length = y.length := by
      rw [List.length_zipWith, hPlen, Nat.min_self]
    omega
  have hypos : (0 : Rat) < (y.length : Rat) := by
    exact_mod_cast Nat.pos_of_ne_zero hy0
  refine ⟨hscore, ?_, ?_, ?_, ?_⟩
  · exact div_nonneg (by positivity) (le_of_lt hypos)
  · rw [div_le_one hypos]
    exact_mod_cast hclen
  · intro hPy
    subst hPy
    rw [hscore, countTrue_zipWith_self]
    rw [div_self (ne_of_gt hypos)]
  · intro hmis
    rw [hscore, countTrue_zipWith_zero P y hmis]
    simp

/-- C6 witness: Scenario C's ensemble predicts `1` for the single sample, the
truth is `1`, and the score is exactly `1`. -/
theorem C6_score_accuracy_witness : score_votes scenC scenC [0] [1] = some 1 :=
  (C6_score_accuracy scenC scenC [0] [1] [1] (by decide) (by decide) (by decide)).2.2.2.1 rfl

/-- C7 counterexample: with 3 samples and 1 true label the lengths differ,
yet `score_votes` does not fail: numpy broadcasts the single label, and the
call returns the number `3.0` (not even inside `[0, 1]`). -/
theorem C7_counterexample : score_votes scenC scenC [0, 1, 2] [1] = some 3 := by
  have h1 : predict_votes scenC [0, 1, 2] = some [1, 1, 1] := by decide
  have h2 : eqBroadcast [1, 1, 1] [1] = some [true, true, true] := by decide
  simp only [score_votes, h1, h2]
  norm_num [countTrue]

/-- C7 amended: `score_votes` fails when the query set is empty, and when the
prediction and truth lengths differ with neither equal to `1` (numpy cannot
broadcast and the comparison errors); the failures are library errors, not a
dedicated `InvalidInput` check, and a length-1 operand broadcasts instead of
failing. -/
theorem C7_amended_failure_conditions :
    (∀ (rfG self : Ensemble) (y : List Nat), score_votes rfG self [] y = none) ∧
    (∀ (rfG self : Ensemble) (X : List Sample) (y : List Nat) (P : List Nat),
      predict_votes rfG X = some P → P.length ≠ y.length → P.length ≠ 1 → y.length ≠ 1 →
      score_votes rfG self X y = none) := by
  constructor
  · intro rfG self y
    have hp : predict_votes rfG [] = none := by
      rw [predict_votes]
      rfl
    simp only [score_votes, hp]
  · intro rfG self X y P hp h1 h2 h3
    have hbc : eqBroadcast P y = none := by
      rw [eqBroadcast, if_neg h1, if_neg h3, if_neg h2]
    simp only [score_votes, hp, hbc]

/-- C7 amended witness: the empty query set fails, and 2 predictions against
3 true labels fail. -/
theorem C7_amended_failure_conditions_witness :
    score_votes scenC scenC [] [1] = none ∧
    score_votes scenC scenC [0, 1] [5, 6, 7] = none :=
  ⟨C7_amended_failure_conditions.1 scenC scenC [1],
    C7_amended_failure_conditions.2 scenC scenC [0, 1] [5, 6, 7] [1, 1]
      (by decide) (by decide) (by decide) (by decide)⟩

/-- C8: a `fit_new_data` call leaves every pre-existing entry of the two
parallel sequences unchanged: the append is purely additive. -/
theorem C8_append_preserves_existing (e : Ensemble) (ms : List Member) (w : Nat) (i : Nat)
    (hi : i < e.estimators_.length) (hw : i < e.vote_weights.length)
    (hi2 : i < (fit_new_data e ms w).estimators_.length)
    (hw2 : i < (fit_new_data e ms w).vote_weights.length) :
    (fit_new_data e ms w).estimators_[i] = e.estimators_[i] ∧
    (fit_new_data e ms w).vote_weights[i] = e.vote_weights[i] :=
  ⟨List.getElem_append_left hi, List.getElem_append_left hw⟩

/-- C8 witness: after appending one more member with weight `3` to the
Scenario C ensemble, the first original weight is still `1`. -/
theorem C8_append_preserves_existing_witness :
    (fit_new_data scenC [constM 0] 3).vote_weights.get ⟨0, by decide⟩
      = scenC.vote_weights.get ⟨0, by decide⟩ :=
  (C8_append_preserves_existing scenC [constM 0] 3 0
    (by decide) (by decide) (by decide) (by decide)).2

/-- C9: `score_votes` reads the global `rf`, not the receiver: its result is
the same for every receiver, equals the score the global ensemble gives
itself, and concretely differs from the receiving instance's own accuracy. -/
theorem C9_score_ignores_receiver :
    (∀ (rfG self1 self2 : Ensemble) (X : List Sample) (y : List Nat),
      score_votes rfG self1 X y = score_votes rfG self2 X y) ∧
    (∀ (rfG self : Ensemble) (X : List Sample) (y : List Nat),
      score_votes rfG self X y = score_votes rfG rfG X y) ∧
    score_votes scenC zeroEns [0] [1] ≠ score_votes zeroEns zeroEns [0] [1] := by
  refine ⟨fun _ _ _ _ _ => rfl, fun _ _ _ _ => rfl, ?_⟩
  have h1 : predict_votes scenC [0] = some [1] := by decide
  have h2 : predict_votes zeroEns [0] = some [0] := by decide
  have h3 : eqBroadcast [1] [1] = some [true] := by decide
  have h4 : eqBroadcast [0] [1] = some [false] := by decide
  simp only [score_votes, h1, h2, h3, h4]
  norm_num [countTrue]

/-- C10: every label a successful `predict_votes` call returns is an element
of `classes_` (the labels are produced by indexing into `classes_`), and
`fit_new_data` never changes `classes_`, so later batches cannot push a
prediction outside the first fit's label domain. -/
theorem C10_labels_in_class_domain :
    (∀ (e : Ensemble) (X : List Sample) (L : List Nat),
      predict_votes e X = some L → ∀ l ∈ L, l ∈ e.classes_) ∧
    (∀ (e : Ensemble) (ms : List Member) (w : Nat), (fit_new_data e ms w).classes_ = e.classes_) := by
  constructor
  · intro e X L hp l hl
    rw [predict_votes] at hp
    by_cases h1 : X.isEmpty
    · rw [if_pos h1] at hp
      cases hp
    · rw [if_neg h1] at hp
      by_cases h2 : e.estimators_.length = e.vote_weights.length
      · rw [if_pos h2] at hp
        obtain ⟨x, _, hfx⟩ := mapM_option_mem _ X L hp l hl
        by_cases hm : modeVal (sampleBallot e x) < e.classes_.length
        · rw [dif_pos hm] at hfx
          have hlg : e.classes_.get ⟨modeVal (sampleBallot e x), hm⟩ = l := Option.some.inj hfx
          rw [← hlg]
          exact e.classes_.get_mem _ _
        · rw [dif_neg hm] at hfx
          cases hfx
      · rw [if_neg h2] at hp
        cases hp
  · intro e ms w
    rfl

/-- C10 witness: the Scenario C prediction `1` is an element of
`classes_ = [0, 1]`. -/
theorem C10_labels_in_class_domain_witness : (1 : Nat) ∈ scenC.classes_ :=
  C10_labels_in_class_domain.1 scenC [0] [1] (by decide) 1 (by decide)

end URF
